import Mathlib

/-!
Verification of the bookworks text-processing engine. The definitions below
are shallow embeddings of the Python source (bookworks/bw_utils.py,
bookworks/utils/helpers.py, bookworks/text/processors.py and the chunking
experiment script). Text is modelled as a list of characters and every
Python regex pass is realized as an explicit scanner with the matching
semantics of the concrete pattern it implements. All scanners are
structurally recursive so that they evaluate on concrete inputs.
-/

set_option maxRecDepth 20000

/-- Shorthand turning a string literal into the character-list text model. -/
def S (s : String) : List Char := s.toList

/-- Characters matched by the Python regex whitespace class and stripped by
str.strip, str.rstrip and str.split with no arguments (ASCII subset). -/
def isPySpace (c : Char) : Bool :=
  c = ' ' || c = '\t' || c = '\n' || c = '\r' || c = '\x0b' || c = '\x0c'

/-- Python str.rstrip with no argument: drop trailing whitespace. -/
def rstrip (l : List Char) : List Char := l.rdropWhile isPySpace

/-- Python str.lstrip with no argument: drop leading whitespace. -/
def lstrip (l : List Char) : List Char := l.dropWhile isPySpace

/-- Python str.strip with no argument: trim whitespace at both ends. -/
def pyStrip (l : List Char) : List Char := rstrip (lstrip l)

/-- Python str.split on a newline separator: cut at every newline keeping
empty pieces, so the result always has at least one element. -/
def splitLines : List Char → List (List Char)
  | [] => [[]]
  | c :: rest =>
    if c = '\n' then [] :: splitLines rest
    else
      match splitLines rest with
      | l :: ls => (c :: l) :: ls
      | [] => [[c]]

/-- Inverse of `splitLines`: join pieces with a newline separator. -/
def joinLines : List (List Char) → List Char
  | [] => []
  | [l] => l
  | l :: ls => l ++ '\n' :: joinLines ls

/-- Concatenation of a list of texts with no separator. -/
def joinList (ls : List (List Char)) : List Char := ls.foldr (· ++ ·) []

theorem rstrip_isPre (l : List Char) : rstrip l <+: l :=
  List.rdropWhile_prefix _ _

theorem lstrip_suffix (l : List Char) : lstrip l <:+ l :=
  List.dropWhile_suffix _

theorem pyStrip_isInf (l : List Char) : pyStrip l <:+: l :=
  ((rstrip_isPre (lstrip l)).isInfix).trans (lstrip_suffix l).isInfix

theorem pyStrip_length_le (l : List Char) : (pyStrip l).length ≤ l.length :=
  ((pyStrip_isInf l).sublist).length_le

theorem splitLines_ne_nil (l : List Char) : splitLines l ≠ [] := by
  induction l with
  | nil => simp [splitLines]
  | cons c rest ih =>
    simp only [splitLines]
    split
    · simp
    · cases h : splitLines rest with
      | nil => exact absurd h ih
      | cons a as => simp

theorem joinLines_splitLines (l : List Char) : joinLines (splitLines l) = l := by
  induction l with
  | nil => simp [splitLines, joinLines]
  | cons c rest ih =>
    simp only [splitLines]
    split
    · rename_i hc
      subst hc
      cases h : splitLines rest with
      | nil => exact absurd h (splitLines_ne_nil rest)
      | cons a as => rw [h] at ih; simp [joinLines, ih]
    · cases h : splitLines rest with
      | nil => exact absurd h (splitLines_ne_nil rest)
      | cons a as =>
        rw [h] at ih
        cases as with
        | nil => simp_all [joinLines]
        | cons b bs => simp_all [joinLines]

theorem splitLines_no_newline (l : List Char) :
    ∀ p ∈ splitLines l, '\n' ∉ p := by
  induction l with
  | nil => simp [splitLines]
  | cons c rest ih =>
    intro p hp
    simp only [splitLines] at hp
    by_cases hc : c = '\n'
    · rw [if_pos hc, List.mem_cons] at hp
      rcases hp with hp | hp
      · subst hp; simp
      · exact ih p hp
    · rw [if_neg hc] at hp
      cases h : splitLines rest with
      | nil => exact absurd h (splitLines_ne_nil rest)
      | cons a as =>
        rw [h] at hp
        rw [List.mem_cons] at hp
        rcases hp with hp | hp
        · subst hp
          have ha : '\n' ∉ a := ih a (by rw [h]; exact List.mem_cons_self a as)
          simp only [List.mem_cons]
          rintro (h1 | h1)
          · exact hc h1.symm
          · exact ha h1
        · exact ih p (by rw [h]; exact List.mem_cons_of_mem a hp)

theorem splitLines_of_no_newline (u : List Char) (h : '\n' ∉ u) :
    splitLines u = [u] := by
  induction u with
  | nil => simp [splitLines]
  | cons c rest ih =>
    simp only [List.mem_cons, not_or] at h
    have hc : ¬ c = '\n' := fun e => h.1 e.symm
    simp only [splitLines]
    rw [if_neg hc, ih h.2]

theorem splitLines_append_newline (u b : List Char) (h : '\n' ∉ u) :
    splitLines (u ++ '\n' :: b) = u :: splitLines b := by
  induction u with
  | nil => simp [splitLines]
  | cons c rest ih =>
    simp only [List.mem_cons, not_or] at h
    have hc : ¬ c = '\n' := fun e => h.1 e.symm
    simp only [List.cons_append, splitLines, List.append_eq]
    rw [if_neg hc, ih h.2]

/-! ## Filename Sanitizer (bw_utils.sanitize_filename, utils/helpers.sanitize_filename) -/

/-- Characters the sanitizer regex class replaces with a hyphen. -/
def badFileChar (c : Char) : Bool :=
  c = '\r' || c = '\n' || c = '\t' || c = '/' || c = '\\' || c = ':' ||
  c = '*' || c = '?' || c = '"' || c = '<' || c = '>' || c = '|'

/-- Collapse every run of hyphens to a single hyphen, the second substitution
pass of sanitize_filename. -/
def collapseHyphens : List Char → List Char
  | [] => []
  | [c] => [c]
  | c :: d :: rest =>
    if c = '-' ∧ d = '-' then collapseHyphens (d :: rest)
    else c :: collapseHyphens (d :: rest)

/-- Python str.strip applied with the two-character hyphen-space argument. -/
def stripHyphenSpace (l : List Char) : List Char :=
  (l.dropWhile fun c => c = '-' || c = ' ').rdropWhile fun c => c = '-' || c = ' '

/-- Embedding of sanitize_filename from bw_utils.py / utils/helpers.py. -/
def sanitize_filename (title : List Char) : List Char :=
  let s1 := title.map fun c => if badFileChar c then '-' else c
  let s2 := collapseHyphens s1
  let s3 := stripHyphenSpace s2
  if s3 = [] then S ("untitled") else s3

/-- Boolean check that no run of two or more consecutive hyphens occurs. -/
def noDoubleHyphenB : List Char → Bool
  | [] => true
  | [_] => true
  | a :: b :: rest => !(a = '-' && b = '-') && noDoubleHyphenB (b :: rest)

/-- No run of two or more consecutive hyphens occurs in the text. -/
def noDoubleHyphen (l : List Char) : Prop := noDoubleHyphenB l = true

instance (l : List Char) : Decidable (noDoubleHyphen l) :=
  inferInstanceAs (Decidable (_ = true))

theorem noDoubleHyphen_iff_chain (l : List Char) :
    noDoubleHyphen l ↔ l.Chain' fun a b => ¬(a = '-' ∧ b = '-') := by
  induction l using noDoubleHyphenB.induct with
  | case1 => simp [noDoubleHyphen, noDoubleHyphenB]
  | case2 a => simp [noDoubleHyphen, noDoubleHyphenB]
  | case3 a b rest ih =>
    rw [noDoubleHyphen, noDoubleHyphenB] at *
    rw [List.chain'_cons]
    constructor
    · intro h
      have h1 := (Bool.and_eq_true _ _).mp h
      refine ⟨?_, ih.mp h1.2⟩
      intro hab
      simp [hab.1, hab.2] at h1
    · rintro ⟨h1, h2⟩
      refine (Bool.and_eq_true _ _).mpr ⟨?_, ih.mpr h2⟩
      by_cases ha : a = '-' <;> by_cases hb : b = '-' <;> simp_all

theorem collapseHyphens_head (l : List Char) :
    (collapseHyphens l).head? = l.head? := by
  induction l using collapseHyphens.induct with
  | case1 => rfl
  | case2 c => rfl
  | case3 c d rest h ih =>
    rw [collapseHyphens, if_pos h, ih]
    simp [h.1, h.2]
  | case4 c d rest h ih =>
    rw [collapseHyphens, if_neg h]
    rfl

theorem collapseHyphens_subset (l : List Char) :
    ∀ x ∈ collapseHyphens l, x ∈ l := by
  induction l using collapseHyphens.induct with
  | case1 => simp [collapseHyphens]
  | case2 c => simp [collapseHyphens]
  | case3 c d rest h ih =>
    rw [collapseHyphens, if_pos h]
    intro x hx
    exact List.mem_cons_of_mem c (ih x hx)
  | case4 c d rest h ih =>
    rw [collapseHyphens, if_neg h]
    intro x hx
    rcases List.mem_cons.mp hx with hx | hx
    · exact hx ▸ List.mem_cons_self c _
    · exact List.mem_cons_of_mem c (ih x hx)

theorem collapseHyphens_noDouble (l : List Char) :
    noDoubleHyphen (collapseHyphens l) := by
  rw [noDoubleHyphen_iff_chain]
  induction l using collapseHyphens.induct with
  | case1 => simp [collapseHyphens]
  | case2 c => simp [collapseHyphens]
  | case3 c d rest h ih => rw [collapseHyphens, if_pos h]; exact ih
  | case4 c d rest h ih =>
    rw [collapseHyphens, if_neg h]
    refine List.chain'_cons'.mpr ⟨?_, ih⟩
    intro y hy
    rw [collapseHyphens_head (d :: rest)] at hy
    simp only [List.head?_cons, Option.mem_def, Option.some.injEq] at hy
    subst hy
    exact h

theorem noDoubleHyphen_isInf {l m : List Char} (h : m <:+: l)
    (hl : noDoubleHyphen l) : noDoubleHyphen m :=
  (noDoubleHyphen_iff_chain m).mpr
    ( List.Chain'.infix ((noDoubleHyphen_iff_chain l).mp hl) h)

theorem stripHyphenSpace_isInf (l : List Char) : stripHyphenSpace l <:+: l :=
  ((List.rdropWhile_prefix _ _).isInfix).trans (List.dropWhile_suffix _).isInfix

/-- Claim C8: for every string the sanitized filename contains none of the
problematic characters, has no run of two or more hyphens, and is never empty,
falling back to the literal untitled. -/
theorem sanitize_filename_safe (title : List Char) :
    (∀ c ∈ sanitize_filename title, ¬badFileChar c) ∧
    noDoubleHyphen (sanitize_filename title) ∧
    sanitize_filename title ≠ [] := by
  simp only [sanitize_filename]
  split
  · refine ⟨?_, by decide, by decide⟩
    intro c hc
    fin_cases hc <;> decide
  · rename_i hne
    refine ⟨?_, ?_, hne⟩
    · intro c hc
      have h1 := (stripHyphenSpace_isInf _).subset hc
      have h2 := collapseHyphens_subset _ c h1
      simp only [List.mem_map] at h2
      obtain ⟨a, _, ha⟩ := h2
      by_cases hb : badFileChar a
      · rw [if_pos hb] at ha; subst ha; decide
      · rw [if_neg hb] at ha; subst ha; exact hb
    · exact noDoubleHyphen_isInf (stripHyphenSpace_isInf _)
        (collapseHyphens_noDouble _)

/-! ## Generic left-to-right regex-substitution engine

Python re.sub scans the text left to right, replaces each leftmost
non-overlapping match and resumes immediately after it. The engine below
realizes this for an arbitrary matcher: the matcher receives a flag telling
whether the current position is a line start (for multiline anchored
patterns) and the remaining text, and reports the replacement text plus the
match length (always at least one for every pattern used here). -/

def pySubGo (tryM : Bool → List Char → Option (List Char × Nat)) :
    Nat → Bool → List Char → List Char
  | _, _, [] => []
  | skip, atStart, c :: rest =>
    if skip ≠ 0 then pySubGo tryM (skip - 1) (c = '\n') rest
    else
      match tryM atStart (c :: rest) with
      | some (rep, len) => rep ++ pySubGo tryM (len - 1) (c = '\n') rest
      | none => c :: pySubGo tryM 0 (c = '\n') rest

/-- Run one global substitution pass over the whole text. -/
def pySub (tryM : Bool → List Char → Option (List Char × Nat))
    (l : List Char) : List Char :=
  pySubGo tryM 0 true l

/-! ## Markdown Cleaner pipeline
(bw_utils.clean_markdown_content, utils/helpers.clean_markdown_content) -/

/-- Normalization of Windows line endings, content.replace of CRLF by LF.
Like Python str.replace it scans left to right without rescanning the
replacement. -/
def normalizeNewlines : List Char → List Char
  | [] => []
  | [c] => [c]
  | c :: d :: rest =>
    if c = '\r' ∧ d = '\n' then '\n' :: normalizeNewlines rest
    else c :: normalizeNewlines (d :: rest)

/-- Words of a text in the sense of Python str.split with no arguments:
maximal runs of non-whitespace characters. -/
def pyWordsGo : List Char → List Char → List (List Char)
  | cur, [] => if cur = [] then [] else [cur.reverse]
  | cur, c :: rest =>
    if isPySpace c then
      if cur = [] then pyWordsGo [] rest else cur.reverse :: pyWordsGo [] rest
    else pyWordsGo (c :: cur) rest

def pyWords (l : List Char) : List (List Char) := pyWordsGo [] l

/-- Join words with single spaces, Python str.join with a space separator. -/
def joinWords : List (List Char) → List Char
  | [] => []
  | [w] => w
  | w :: ws => w ++ ' ' :: joinWords ws

/-- Lazy url part of the link pattern: any characters other than a closing
parenthesis or newline, then the closing parenthesis. Returns the url and
the number of characters consumed including the closing parenthesis. -/
def tryUrl (l : List Char) : Option (List Char × Nat) :=
  let u := l.takeWhile fun c => !(c = ')') && !(c = '\n')
  match l.dropWhile fun c => !(c = ')') && !(c = '\n') with
  | ')' :: _ => some (u, u.length + 1)
  | _ => none

/-- Lazy scan for the link text: the shortest extent, growing over any
characters including newlines, whose next characters close the bracket and
open a parenthesis with a valid url part. Returns the link text, the url,
and the characters consumed after the opening bracket. -/
def linkScan : List Char → List Char → Option (List Char × List Char × Nat)
  | acc, ']' :: '(' :: rest =>
    (match tryUrl rest with
     | some (u, n) => some (acc.reverse, u, acc.length + 2 + n)
     | none => linkScan ('(' :: ']' :: acc) rest)
  | acc, c :: rest => linkScan (c :: acc) rest
  | _, [] => none

/-- Matcher for the multi-line link pattern of clean_link: bracketed text
that may span lines followed by a parenthesized url. The replacement
collapses all whitespace runs in the text to single spaces. -/
def tryLinkSub : Bool → List Char → Option (List Char × Nat) := fun _ l =>
  match l with
  | c :: rest =>
    if c = '[' then
      match linkScan [] rest with
      | some (text, url, n) =>
        some ('[' :: joinWords (pyWords text) ++ ']' :: '(' :: url ++ [')'], 1 + n)
      | none => none
    else none
  | [] => none

/-- The multi-line link fixing pass of clean_markdown_content. -/
def fixLinks (l : List Char) : List Char := pySub tryLinkSub l

/-- A line matching the title pattern: a level-1 heading line. -/
def isH1Line : List Char → Bool
  | c1 :: c2 :: _ => c1 = '#' && c2 = ' '
  | _ => false

/-- First multiline match of the title pattern over the text: the captured
group is the remainder of the first level-1 heading line. -/
def findTitle (content : List Char) : Option (List Char) :=
  ((splitLines content).find? isH1Line).map fun l => l.drop 2

/-- Extracted metadata title including the sentinel default. -/
def extractedTitle (content : List Char) : List Char :=
  (findTitle content).getD (S ("Untitled Document"))

/-- Paragraph reflow loop of clean_markdown_content: each line is
right-trimmed; heading or list lines, lines followed by a blank line and
final lines pass through; any other line gets an extra newline appended. -/
def reflowSpecial (r : List Char) : Bool :=
  match pyStrip r with
  | c :: _ => c = '#' || c = '*' || c = '-' || c = '+'
  | [] => false

def reflowNextEmpty : List (List Char) → Bool
  | [] => true
  | n :: _ => pyStrip n = []

def reflowLines : List (List Char) → List (List Char)
  | [] => []
  | l :: rest =>
    if rstrip l = [] then [] :: reflowLines rest
    else if reflowSpecial (rstrip l) || reflowNextEmpty rest then
      rstrip l :: reflowLines rest
    else (rstrip l ++ ['\n']) :: reflowLines rest

/-- Embedding of bw_utils.clean_markdown_content: the title is extracted
from the raw content, then line endings are normalized, multi-line links
fixed and paragraph spacing added. Returns the processed content and the
metadata title. -/
def clean_markdown_content (content : List Char) : List Char × List Char :=
  let title := extractedTitle content
  let c1 := normalizeNewlines content
  let c2 := fixLinks c1
  let c3 := joinLines (reflowLines (splitLines c2))
  (c3, title)

/-- Embedding of utils/helpers.clean_markdown_content: same pipeline, but
the title is extracted from the processed content. -/
def helpers_clean_markdown_content (content : List Char) : List Char × List Char :=
  let c1 := normalizeNewlines content
  let c2 := fixLinks c1
  let c3 := joinLines (reflowLines (splitLines c2))
  (c3, extractedTitle c3)

/-- Claim C5: cleaning the three-line sample document yields metadata title
Test Title, keeps the heading as the first output line, and inserts a blank
line between the two prose lines; the helpers variant agrees. -/
theorem clean_markdown_content_sample :
    (clean_markdown_content
      (S ("# Test Title\nThis is a paragraph.\nAnother line."))).2
        = S ("Test Title") ∧
    splitLines (clean_markdown_content
      (S ("# Test Title\nThis is a paragraph.\nAnother line."))).1
        = [S ("# Test Title"), S ("This is a paragraph."), [],
           S ("Another line.")] ∧
    (helpers_clean_markdown_content
      (S ("# Test Title\nThis is a paragraph.\nAnother line."))).2
        = S ("Test Title") ∧
    (helpers_clean_markdown_content
      (S ("# Test Title\nThis is a paragraph.\nAnother line."))).1
        = (clean_markdown_content
            (S ("# Test Title\nThis is a paragraph.\nAnother line."))).1 := by
  decide

/-- Claim C9: cleaning a link whose text spans three lines produces exactly
the single-line link. -/
theorem clean_markdown_content_multiline_link :
    (clean_markdown_content
      (S ("[This is a\nmulti-line\nlink](https://example.com)"))).1
        = S ("[This is a multi-line link](https://example.com)") := by
  decide

/-- Claim C6 counterexample: on a heading line with trailing whitespace and a
carriage-return line ending, the title captured on the raw content differs
from the title captured after line-ending normalization, link normalization
and paragraph reflow, so extraction does not commute with cleaning. -/
theorem title_extraction_not_commuting :
    extractedTitle (S ("# T \r\nx")) = S ("T \r") ∧
    extractedTitle (clean_markdown_content (S ("# T \r\nx"))).1 = S ("T") ∧
    S ("T \r") ≠ S ("T") := by
  decide


theorem normalizeNewlines_id (c : List Char) (h : '\r' ∉ c) :
    normalizeNewlines c = c := by
  induction c using normalizeNewlines.induct with
  | case1 => rfl
  | case2 x => rfl
  | case3 x d rest hcd ih =>
    exfalso
    exact (by simp [hcd.1] at h : False)
  | case4 x d rest hcd ih =>
    simp only [List.mem_cons, not_or] at h
    have hd : '\r' ∉ d :: rest := by
      simp only [List.mem_cons, not_or]
      exact ⟨h.2.1, h.2.2⟩
    rw [normalizeNewlines, if_neg hcd, ih hd]

theorem pySubGo_links_id (l : List Char) (h : '[' ∉ l) :
    ∀ st, pySubGo tryLinkSub 0 st l = l := by
  induction l with
  | nil => intro st; rfl
  | cons c rest ih =>
    intro st
    simp only [List.mem_cons, not_or] at h
    have hc : ¬ c = '[' := fun e => h.1 e.symm
    rw [pySubGo]
    simp only [if_neg (by simp : ¬(0 : Nat) ≠ 0)]
    rw [show tryLinkSub st (c :: rest) = none by simp [tryLinkSub, hc]]
    rw [ih h.2 (c = '\n')]

theorem fixLinks_id (c : List Char) (h : '[' ∉ c) : fixLinks c = c :=
  pySubGo_links_id c h true

theorem isH1Line_of_isPre {r l : List Char} (hp : r <+: l)
    (hr : isH1Line r = true) : isH1Line l = true := by
  match r, hr with
  | c1 :: c2 :: u, hr =>
    obtain ⟨t, ht⟩ := hp
    subst ht
    simp only [List.cons_append, isH1Line, Bool.and_eq_true,
      decide_eq_true_eq] at hr ⊢
    exact hr

theorem rstrip_no_newline {l : List Char} (h : '\n' ∉ l) : '\n' ∉ rstrip l :=
  fun hm => h ((rstrip_isPre l).subset hm)

/-- Shape of one reflow step: each input line contributes exactly one output
entry, which is empty, the right-trimmed line, or the right-trimmed line
with an extra newline appended. -/
theorem reflowLines_cons_shape (l : List Char) (rest : List (List Char)) :
    ∃ e, reflowLines (l :: rest) = e :: reflowLines rest ∧
      ((rstrip l = [] ∧ e = []) ∨ e = rstrip l ∨ e = rstrip l ++ ['\n']) := by
  rw [reflowLines]
  by_cases h1 : rstrip l = []
  · exact ⟨[], by rw [if_pos h1], Or.inl ⟨h1, rfl⟩⟩
  · rw [if_neg h1]
    by_cases h2 : (reflowSpecial (rstrip l) || reflowNextEmpty rest) = true
    · exact ⟨rstrip l, by rw [if_pos h2], Or.inr (Or.inl rfl)⟩
    · exact ⟨rstrip l ++ ['\n'], by rw [if_neg h2], Or.inr (Or.inr rfl)⟩


/-- Core commutation lemma: reflowing, joining and re-splitting does not
change which line is the first level-1 heading, provided no line contains a
newline and heading lines carry no trailing whitespace. -/
theorem reflow_find_h1 (ls : List (List Char))
    (hn : ∀ l ∈ ls, '\n' ∉ l)
    (hh : ∀ l ∈ ls, isH1Line l → rstrip l = l) :
    (splitLines (joinLines (reflowLines ls))).find? isH1Line
      = ls.find? isH1Line := by
  induction ls with
  | nil => rfl
  | cons l rest ih =>
    obtain ⟨e, he, hcases⟩ := reflowLines_cons_shape l rest
    have hnl : '\n' ∉ l := hn l (List.mem_cons_self _ _)
    have hnr : '\n' ∉ rstrip l := rstrip_no_newline hnl
    have ihr := ih (fun x hx => hn x (List.mem_cons_of_mem _ hx))
      (fun x hx => hh x (List.mem_cons_of_mem _ hx))
    have hH1 : isH1Line (rstrip l) = isH1Line l := by
      by_cases hl : isH1Line l
      · rw [hh l (List.mem_cons_self _ _) hl, hl]
      · have hz : isH1Line (rstrip l) = false := by
          by_contra hc
          simp only [Bool.not_eq_false] at hc
          exact absurd (isH1Line_of_isPre (rstrip_isPre l) hc) hl
        rw [hz, eq_comm, Bool.eq_false_iff]
        exact hl
    have hblank : rstrip l = [] → isH1Line l = false := by
      intro hz
      by_contra hc
      simp only [Bool.not_eq_false] at hc
      have h2 := hh l (List.mem_cons_self _ _) hc
      rw [hz] at h2
      rw [← h2] at hc
      simp [isH1Line] at hc
    rw [he]
    cases hrest : reflowLines rest with
    | nil =>
      have hrn : rest = [] := by
        cases rest with
        | nil => rfl
        | cons x xs =>
          obtain ⟨e2, he2, _⟩ := reflowLines_cons_shape x xs
          rw [he2] at hrest
          exact absurd hrest (List.cons_ne_nil _ _)
      subst hrn
      rcases hcases with ⟨hz, hc⟩ | hc | hc
      · subst hc
        show (splitLines (joinLines [[]])).find? isH1Line = _
        rw [show joinLines [([] : List Char)] = [] from rfl]
        rw [show splitLines [] = [[]] from rfl]
        rw [List.find?_cons_of_neg _ (by simp [isH1Line]),
          List.find?_cons_of_neg _ (by simp [hblank hz])]
      · subst hc
        show (splitLines (joinLines [rstrip l])).find? isH1Line = _
        rw [show joinLines [rstrip l] = rstrip l from rfl,
          splitLines_of_no_newline _ hnr]
        by_cases hl : isH1Line l
        · rw [List.find?_cons_of_pos _ (by rw [hH1]; exact hl),
            List.find?_cons_of_pos _ hl, hh l (List.mem_cons_self _ _) hl]
        · rw [List.find?_cons_of_neg _ (by rw [hH1]; exact hl),
            List.find?_cons_of_neg _ hl]
      · subst hc
        show (splitLines (joinLines [rstrip l ++ ['\n']])).find? isH1Line = _
        rw [show joinLines [rstrip l ++ ['\n']] = rstrip l ++ ['\n'] from rfl]
        rw [show rstrip l ++ ['\n'] = rstrip l ++ '\n' :: [] from rfl,
          splitLines_append_newline _ _ hnr]
        rw [show splitLines ([] : List Char) = [[]] from rfl]
        by_cases hl : isH1Line l
        · rw [List.find?_cons_of_pos _ (by rw [hH1]; exact hl),
            List.find?_cons_of_pos _ hl, hh l (List.mem_cons_self _ _) hl]
        · rw [List.find?_cons_of_neg _ (by rw [hH1]; exact hl),
            List.find?_cons_of_neg _ (by simp [isH1Line]),
            List.find?_cons_of_neg _ hl]
    | cons a as =>
      rw [← hrest]
      have hjoin : joinLines (e :: reflowLines rest)
          = e ++ '\n' :: joinLines (reflowLines rest) := by
        rw [hrest]
        rfl
      rw [hjoin]
      rcases hcases with ⟨hz, hc⟩ | hc | hc
      · subst hc
        rw [List.nil_append,
          show splitLines ('\n' :: joinLines (reflowLines rest))
            = [] :: splitLines (joinLines (reflowLines rest)) from by
              rw [splitLines, if_pos rfl]]
        rw [List.find?_cons_of_neg _ (by simp [isH1Line]), ihr,
          List.find?_cons_of_neg _ (by simp [hblank hz])]
      · subst hc
        rw [splitLines_append_newline _ _ hnr]
        by_cases hl : isH1Line l
        · rw [List.find?_cons_of_pos _ (by rw [hH1]; exact hl),
            List.find?_cons_of_pos _ hl, hh l (List.mem_cons_self _ _) hl]
        · rw [List.find?_cons_of_neg _ (by rw [hH1]; exact hl),
            List.find?_cons_of_neg _ hl, ihr]
      · subst hc
        rw [show (rstrip l ++ ['\n']) ++ '\n' :: joinLines (reflowLines rest)
            = rstrip l ++ '\n' :: ('\n' :: joinLines (reflowLines rest)) from by
              simp]
        rw [splitLines_append_newline _ _ hnr]
        rw [show splitLines ('\n' :: joinLines (reflowLines rest))
            = [] :: splitLines (joinLines (reflowLines rest)) from by
              rw [splitLines, if_pos rfl]]
        by_cases hl : isH1Line l
        · rw [List.find?_cons_of_pos _ (by rw [hH1]; exact hl),
            List.find?_cons_of_pos _ hl, hh l (List.mem_cons_self _ _) hl]
        · rw [List.find?_cons_of_neg _ (by rw [hH1]; exact hl),
            List.find?_cons_of_neg _ (by simp [isH1Line]), ihr,
            List.find?_cons_of_neg _ hl]

/-- Claim C6 (amended): title extraction commutes with line-ending
normalization, link normalization and paragraph reflow for content that
contains no carriage return, contains no opening square bracket (so the
link pass is inert), and whose level-1 heading lines carry no trailing
whitespace. The counterexample shows the restriction is needed: reflow
right-trims heading lines, so trailing whitespace or a carriage return in
the heading line changes the captured title. -/
theorem title_extraction_commutes (c : List Char)
    (hr : '\r' ∉ c) (hb : '[' ∉ c)
    (hh : ∀ l ∈ splitLines c, isH1Line l → rstrip l = l) :
    extractedTitle (clean_markdown_content c).1 = extractedTitle c := by
  show extractedTitle
    (joinLines (reflowLines (splitLines (fixLinks (normalizeNewlines c)))))
      = extractedTitle c
  rw [normalizeNewlines_id c hr, fixLinks_id c hb]
  unfold extractedTitle findTitle
  rw [reflow_find_h1 (splitLines c) (splitLines_no_newline c) hh]

theorem title_extraction_commutes_witness :
    extractedTitle (clean_markdown_content (S ("# Hello\nworld"))).1
      = extractedTitle (S ("# Hello\nworld")) :=
  title_extraction_commutes (S ("# Hello\nworld")) (by decide) (by decide)
    (by decide)

/-! ## Chapter Splitter
(bw_utils.split_by_chapters, text/processors.ChapterSplitter.split_chapters) -/

/-- A chapter record: title plus content. -/
structure Chapter where
  title : List Char
  content : List Char
deriving DecidableEq

/-- Attempt of the chapter heading pattern at a line start: one or two hash
marks, at least one whitespace character (the whitespace class includes
newlines, matched greedily), then the lazily captured group up to the line
end. Returns the total match length and the captured group. -/
def tryChapterHead : List Char → Option (Nat × List Char)
  | '#' :: '#' :: rest =>
    (match rest with
     | c :: _ =>
       if isPySpace c then
         some (2 + (rest.takeWhile isPySpace).length
             + ((rest.dropWhile isPySpace).takeWhile (· ≠ '\n')).length,
           (rest.dropWhile isPySpace).takeWhile (· ≠ '\n'))
       else none
     | [] => none)
  | '#' :: rest =>
    (match rest with
     | c :: _ =>
       if isPySpace c then
         some (1 + (rest.takeWhile isPySpace).length
             + ((rest.dropWhile isPySpace).takeWhile (· ≠ '\n')).length,
           (rest.dropWhile isPySpace).takeWhile (· ≠ '\n'))
       else none
     | [] => none)
  | _ => none

/-- Scanner realizing finditer for the chapter heading pattern: positions
are tried left to right, the pattern is anchored at line starts, and the
scan resumes right after each match. Each returned pair is the match start
offset and the captured group. -/
def findMatchesGo : Nat → Nat → Bool → List Char → List (Nat × List Char)
  | _, _, _, [] => []
  | off, skip, atStart, c :: rest =>
    if skip ≠ 0 then findMatchesGo (off + 1) (skip - 1) (c = '\n') rest
    else if atStart then
      match tryChapterHead (c :: rest) with
      | some (len, grp) =>
        (off, grp) :: findMatchesGo (off + 1) (len - 1) (c = '\n') rest
      | none => findMatchesGo (off + 1) 0 (c = '\n') rest
    else findMatchesGo (off + 1) 0 (c = '\n') rest

/-- All matches of the chapter heading pattern over the content. -/
def findMatches (content : List Char) : List (Nat × List Char) :=
  findMatchesGo 0 0 true content

/-- End position of the current chapter span: the start of the next match,
or the end of the content for the last match. -/
def spanEnd (content : List Char) : List (Nat × List Char) → Nat
  | [] => content.length
  | m2 :: _ => m2.1

/-- Chapter records built from the match list: each chapter span runs from
its match start to the next match start, or to the end of the content for
the last match; title and content are stripped. -/
def chaptersFrom (content : List Char) : List (Nat × List Char) → List Chapter
  | [] => []
  | m :: rest =>
    ⟨pyStrip m.2,
     pyStrip ((content.drop m.1).take (spanEnd content rest - m.1))⟩ ::
      chaptersFrom content rest

/-- Raw pre-strip spans of the chapters, one per match. -/
def rawSpans (content : List Char) : List (Nat × List Char) → List (List Char)
  | [] => []
  | m :: rest =>
    (content.drop m.1).take (spanEnd content rest - m.1) :: rawSpans content rest

/-- Embedding of bw_utils.split_by_chapters: pattern-scan variant. -/
def split_by_chapters (content book_title : List Char) : List Chapter :=
  match findMatches content with
  | [] => [⟨book_title, content⟩]
  | m :: ms => chaptersFrom content (m :: ms)

namespace ChapterSplitter

/-- Close the accumulated chapter: strip the joined lines and append the
record when non-empty, falling back to the book title when the current
title is empty. -/
def flushChapter (chapters : List Chapter) (current : List (List Char))
    (title book_title : List Char) : List Chapter :=
  if pyStrip (joinLines current) = [] then chapters
  else chapters ++
    [⟨if title = [] then book_title else title, pyStrip (joinLines current)⟩]

/-- Line walk of ChapterSplitter.split_chapters: a hash-started line closes
the previous chapter and opens a new one titled by the heading text, except
that the first level-1 heading seen before any heading is consumed as the
book title line. -/
def splitGo (book_title : List Char) :
    List (List Char) → List Chapter → List (List Char) → List Char → Bool →
      List Chapter
  | [], chapters, current, title, _ =>
    flushChapter chapters current title book_title
  | line :: rest, chapters, current, title, ff =>
    if line.head? = some '#' then
      if isH1Line line ∧ ff = false then
        splitGo book_title rest chapters current title true
      else
        splitGo book_title rest (flushChapter chapters current title book_title)
          [line] (pyStrip (line.dropWhile (· = '#'))) ff
    else splitGo book_title rest chapters (current ++ [line]) title ff

/-- Embedding of ChapterSplitter.split_chapters: line-walk variant with the
whole-content fallback when no chapter was produced. -/
def split_chapters (content book_title : List Char) : List Chapter :=
  match splitGo book_title (splitLines content) [] [] [] false with
  | [] => [⟨book_title, pyStrip content⟩]
  | c :: cs => c :: cs

end ChapterSplitter
theorem joinList_cons (x : List Char) (xs : List (List Char)) :
    joinList (x :: xs) = x ++ joinList xs := rfl

/-- Match starts produced by the scanner are bounded by the scanned region
and sorted in document order. -/
theorem findMatchesGo_bounds (l : List Char) :
    ∀ (off skip : Nat) (st : Bool),
      (∀ p ∈ findMatchesGo off skip st l, off ≤ p.1 ∧ p.1 < off + l.length) ∧
      (findMatchesGo off skip st l).Chain' (fun a b => a.1 ≤ b.1) := by
  induction l with
  | nil => intro off skip st; exact ⟨by simp [findMatchesGo], by simp [findMatchesGo]⟩
  | cons c rest ih =>
    intro off skip st
    rw [findMatchesGo]
    by_cases hskip : skip ≠ 0
    · rw [if_pos hskip]
      obtain ⟨hb, hc⟩ := ih (off + 1) (skip - 1) (c = '\n')
      refine ⟨fun p hp => ?_, hc⟩
      obtain ⟨h1, h2⟩ := hb p hp
      simp only [List.length_cons] at h2 ⊢
      exact ⟨by omega, by omega⟩
    · rw [if_neg hskip]
      by_cases hst : st = true
      · rw [if_pos hst]
        cases hm : tryChapterHead (c :: rest) with
        | none =>
          obtain ⟨hb, hc⟩ := ih (off + 1) 0 (c = '\n')
          refine ⟨fun p hp => ?_, hc⟩
          obtain ⟨h1, h2⟩ := hb p hp
          simp only [List.length_cons] at h2 ⊢
          exact ⟨by omega, by omega⟩
        | some pair =>
          obtain ⟨len, grp⟩ := pair
          obtain ⟨hb, hc⟩ := ih (off + 1) (len - 1) (c = '\n')
          constructor
          · intro p hp
            rcases List.mem_cons.mp hp with hp | hp
            · subst hp
              refine ⟨Nat.le_refl _, ?_⟩
              simp only [List.length_cons]
              omega
            · obtain ⟨h1, h2⟩ := hb p hp
              simp only [List.length_cons] at h2 ⊢
              exact ⟨by omega, by omega⟩
          · refine List.chain'_cons'.mpr ⟨fun y hy => ?_, hc⟩
            have hym := List.mem_of_mem_head? hy
            obtain ⟨h1, _⟩ := hb y hym
            exact Nat.le_of_succ_le h1
      · rw [if_neg hst]
        obtain ⟨hb, hc⟩ := ih (off + 1) 0 (c = '\n')
        refine ⟨fun p hp => ?_, hc⟩
        obtain ⟨h1, h2⟩ := hb p hp
        simp only [List.length_cons] at h2 ⊢
        exact ⟨by omega, by omega⟩

/-- Joining the raw spans of a sorted, bounded match list reconstructs the
content from the first match start on. -/
theorem rawSpans_join (content : List Char) :
    ∀ ms : List (Nat × List Char), ms.Chain' (fun a b => a.1 ≤ b.1) →
      (∀ p ∈ ms, p.1 ≤ content.length) →
      joinList (rawSpans content ms)
        = (match ms with
           | [] => []
           | m :: _ => content.drop m.1) := by
  intro ms
  induction ms with
  | nil => intro _ _; rfl
  | cons m rest ih =>
    intro hchain hle
    rw [rawSpans, joinList_cons]
    cases rest with
    | nil =>
      have hlen : (content.drop m.1).length = content.length - m.1 :=
        List.length_drop m.1 content
      rw [show spanEnd content [] = content.length from rfl]
      rw [← hlen, List.take_length]
      simp [rawSpans, joinList]
    | cons m2 rest2 =>
      have hs : m.1 ≤ m2.1 := (List.chain'_cons.mp hchain).1
      have ih2 := ih (List.chain'_cons.mp hchain).2
        (fun p hp => hle p (List.mem_cons_of_mem _ hp))
      rw [ih2]
      show (content.drop m.1).take (spanEnd content (m2 :: rest2) - m.1)
          ++ content.drop m2.1 = content.drop m.1
      rw [show spanEnd content (m2 :: rest2) = m2.1 from rfl]
      have hdd : (content.drop m.1).drop (m2.1 - m.1) = content.drop m2.1 := by
        rw [List.drop_drop]
        congr 1
        omega
      rw [← hdd, List.take_append_drop]

theorem chaptersFrom_content_map (content : List Char) :
    ∀ ms, (chaptersFrom content ms).map Chapter.content
      = (rawSpans content ms).map pyStrip := by
  intro ms
  induction ms with
  | nil => rfl
  | cons m rest ih =>
    rw [chaptersFrom, rawSpans, List.map_cons, List.map_cons, ih]

theorem chaptersFrom_title_map (content : List Char) :
    ∀ ms, (chaptersFrom content ms).map Chapter.title
      = ms.map fun p => pyStrip p.2 := by
  intro ms
  induction ms with
  | nil => rfl
  | cons m rest ih =>
    rw [chaptersFrom, List.map_cons, List.map_cons, ih]

theorem chaptersFrom_length (content : List Char) :
    ∀ ms, (chaptersFrom content ms).length = ms.length := by
  intro ms
  induction ms with
  | nil => rfl
  | cons m rest ih =>
    rw [chaptersFrom, List.length_cons, List.length_cons, ih]

/-- Claim C1 (amended, pattern-scan variant): when at least one heading
matches, the chapter spans of split_by_chapters are consecutive slices in
document order whose concatenation reconstructs the content with exactly
the preamble before the first heading dropped, and the returned chapters
are the stripped spans with the stripped captured titles; in the line-walk
variant the preamble is not dropped (see the counterexample). -/
theorem split_by_chapters_spans (content book_title : List Char)
    (m : Nat × List Char) (ms : List (Nat × List Char))
    (h : findMatches content = m :: ms) :
    content.take m.1 ++ joinList (rawSpans content (m :: ms)) = content ∧
    (split_by_chapters content book_title).map Chapter.content
      = (rawSpans content (m :: ms)).map pyStrip ∧
    (split_by_chapters content book_title).map Chapter.title
      = (m :: ms).map fun p => pyStrip p.2 := by
  obtain ⟨hb, hchain⟩ := findMatchesGo_bounds content 0 0 true
  rw [show findMatchesGo 0 0 true content = findMatches content from rfl, h]
    at hb hchain
  have hle : ∀ p ∈ m :: ms, p.1 ≤ content.length := by
    intro p hp
    have := (hb p hp).2
    omega
  have hj := rawSpans_join content (m :: ms) hchain hle
  have he : split_by_chapters content book_title
      = chaptersFrom content (m :: ms) := by
    unfold split_by_chapters
    rw [h]
  refine ⟨?_, ?_, ?_⟩
  · rw [hj]
    exact List.take_append_drop _ _
  · rw [he, chaptersFrom_content_map]
  · rw [he, chaptersFrom_title_map]

theorem split_by_chapters_spans_witness :
    (S ("x\n# A\nb")).take 2
        ++ joinList (rawSpans (S ("x\n# A\nb")) [(2, S ("A"))])
      = S ("x\n# A\nb") ∧
    (split_by_chapters (S ("x\n# A\nb")) (S ("T"))).map Chapter.content
      = (rawSpans (S ("x\n# A\nb")) [(2, S ("A"))]).map pyStrip ∧
    (split_by_chapters (S ("x\n# A\nb")) (S ("T"))).map Chapter.title
      = [(2, S ("A"))].map fun p => pyStrip p.2 :=
  split_by_chapters_spans (S ("x\n# A\nb")) (S ("T")) (2, S ("A")) []
    (by decide)

/-- Claim C1 counterexample: the line-walk splitter does not drop the
preamble before the first heading; the preamble becomes the first chapter. -/
theorem line_walk_preamble_counterexample :
    ChapterSplitter.split_chapters (S ("preamble\n## A\nbody")) (S ("B"))
      = [⟨S ("B"), S ("preamble")⟩, ⟨S ("A"), S ("## A\nbody")⟩] ∧
    S ("preamble") ∈
      (ChapterSplitter.split_chapters (S ("preamble\n## A\nbody"))
        (S ("B"))).map Chapter.content := by
  decide

theorem splitGo_no_header (bt : List Char) (lines : List (List Char))
    (h : ∀ l ∈ lines, l.head? ≠ some '#') :
    ∀ chapters current title ff,
      ChapterSplitter.splitGo bt lines chapters current title ff
        = ChapterSplitter.flushChapter chapters (current ++ lines) title bt := by
  induction lines with
  | nil =>
    intro chapters current title ff
    rw [ChapterSplitter.splitGo, List.append_nil]
  | cons l rest ih =>
    intro chapters current title ff
    rw [ChapterSplitter.splitGo,
      if_neg (h l (List.mem_cons_self _ _)),
      ih (fun x hx => h x (List.mem_cons_of_mem _ hx)) chapters
        (current ++ [l]) title ff]
    rw [List.append_assoc]
    rfl

theorem split_chapters_no_header (content bt : List Char)
    (h : ∀ l ∈ splitLines content, l.head? ≠ some '#') :
    ChapterSplitter.split_chapters content bt = [⟨bt, pyStrip content⟩] := by
  unfold ChapterSplitter.split_chapters
  rw [splitGo_no_header bt (splitLines content) h [] [] [] false]
  unfold ChapterSplitter.flushChapter
  rw [List.nil_append, joinLines_splitLines]
  by_cases hz : pyStrip content = []
  · rw [if_pos hz]
  · rw [if_neg hz]
    simp

/-- Claim C2 (amended): both splitters return at least one chapter for every
input; with no heading match the pattern-scan variant returns the single
chapter holding the input untrimmed, while the line-walk variant returns the
single chapter holding the input trimmed. -/
theorem split_chapters_basic (content book_title : List Char) :
    1 ≤ (split_by_chapters content book_title).length ∧
    1 ≤ (ChapterSplitter.split_chapters content book_title).length ∧
    (findMatches content = [] →
      split_by_chapters content book_title = [⟨book_title, content⟩]) ∧
    ((∀ l ∈ splitLines content, l.head? ≠ some '#') →
      ChapterSplitter.split_chapters content book_title
        = [⟨book_title, pyStrip content⟩]) := by
  refine ⟨?_, ?_, ?_, ?_⟩
  · unfold split_by_chapters
    cases h : findMatches content with
    | nil => simp
    | cons m ms => simp [chaptersFrom_length]
  · unfold ChapterSplitter.split_chapters
    cases h : ChapterSplitter.splitGo book_title (splitLines content) [] [] []
        false with
    | nil => simp
    | cons c cs => simp
  · intro h
    unfold split_by_chapters
    rw [h]
  · exact split_chapters_no_header content book_title

theorem split_chapters_basic_witness :
    split_by_chapters (S ("hello")) (S ("T")) = [⟨S ("T"), S ("hello")⟩] ∧
    ChapterSplitter.split_chapters (S ("hello")) (S ("T"))
      = [⟨S ("T"), S ("hello")⟩] :=
  ⟨(split_chapters_basic (S ("hello")) (S ("T"))).2.2.1 (by decide), by
    have h := (split_chapters_basic (S ("hello")) (S ("T"))).2.2.2 (by decide)
    rw [h]
    decide⟩

/-- Claim C2 counterexample: with no heading lines the pattern-scan splitter
returns the input content untrimmed, not whitespace-trimmed as claimed. -/
theorem split_by_chapters_untrimmed_counterexample :
    findMatches (S (" x ")) = [] ∧
    split_by_chapters (S (" x ")) (S ("T")) = [⟨S ("T"), S (" x ")⟩] ∧
    pyStrip (S (" x ")) = S ("x") ∧
    split_by_chapters (S (" x ")) (S ("T"))
      ≠ [⟨S ("T"), pyStrip (S (" x "))⟩] := by
  decide

/-! ## Content Chunker
(experiments chapter-chunking chunk_chapter_content) -/

/-- State of the paragraph splitter: inside a paragraph, after one newline,
or inside a run of boundary newlines. -/
inductive ParaMode where
  | norm : ParaMode
  | sawNl : ParaMode
  | skipNl : ParaMode

/-- Paragraph split on runs of two or more newlines, with the accumulated
piece kept reversed. Single newlines stay inside the paragraph; the leading
and trailing empty pieces of re.split are preserved. -/
def splitParasGo : List Char → ParaMode → List Char → List (List Char)
  | cur, ParaMode.norm, [] => [cur.reverse]
  | cur, ParaMode.sawNl, [] => [('\n' :: cur).reverse]
  | _, ParaMode.skipNl, [] => [[]]
  | cur, ParaMode.norm, c :: rest =>
    if c = '\n' then splitParasGo cur ParaMode.sawNl rest
    else splitParasGo (c :: cur) ParaMode.norm rest
  | cur, ParaMode.sawNl, c :: rest =>
    if c = '\n' then cur.reverse :: splitParasGo [] ParaMode.skipNl rest
    else splitParasGo (c :: '\n' :: cur) ParaMode.norm rest
  | cur, ParaMode.skipNl, c :: rest =>
    if c = '\n' then splitParasGo cur ParaMode.skipNl rest
    else splitParasGo [c] ParaMode.norm rest

/-- Split content into paragraphs on blank-line boundaries. -/
def splitParas (l : List Char) : List (List Char) :=
  splitParasGo [] ParaMode.norm l

/-- Sentence terminators of the sentence-boundary pattern. -/
def isSentEnd (c : Char) : Bool := c = '.' || c = '!' || c = '?'

/-- Lookbehind of the sentence-boundary pattern: the previous character,
kept at the head of the reversed accumulator, is a terminator. -/
def headIsSentEnd : List Char → Bool
  | t :: _ => isSentEnd t
  | [] => false

/-- Sentence split on whitespace preceded by a terminator, whitespace run
consumed greedily; the accumulated piece is kept reversed, and the flag
records that the scanner is inside a boundary whitespace run. -/
def splitSentsGo : List Char → Bool → List Char → List (List Char)
  | cur, false, [] => [cur.reverse]
  | cur, true, [] => [cur.reverse]
  | cur, true, c :: rest =>
    if isPySpace c then splitSentsGo cur true rest
    else splitSentsGo [c] false rest
  | cur, false, c :: rest =>
    if isPySpace c && headIsSentEnd cur then
      cur.reverse :: splitSentsGo [] true rest
    else splitSentsGo (c :: cur) false rest

/-- Split a chunk into sentences at terminator-plus-whitespace boundaries. -/
def splitSents (l : List Char) : List (List Char) :=
  splitSentsGo [] false l

/-- Greedy paragraph packing pass of chunk_chapter_content: close the
running chunk when the next paragraph would push it past the maximum and
the running chunk already reaches the minimum. -/
def paraAccum (maxS minS : Int) :
    List (List Char) → List (List Char) → List Char → List (List Char)
  | [], chunks, cur => if cur = [] then chunks else chunks ++ [pyStrip cur]
  | p :: ps, chunks, cur =>
    if (cur.length : Int) + p.length + 2 > maxS ∧ (cur.length : Int) ≥ minS
    then paraAccum maxS minS ps (chunks ++ [pyStrip cur]) p
    else paraAccum maxS minS ps chunks
      (if cur = [] then p else cur ++ '\n' :: '\n' :: p)

/-- Greedy sentence packing fallback of chunk_chapter_content, joining with
single spaces under the same closing rule. -/
def sentAccum (maxS minS : Int) :
    List (List Char) → List (List Char) → List Char → List (List Char)
  | [], out, temp => if temp = [] then out else out ++ [pyStrip temp]
  | s :: ss, out, temp =>
    if (temp.length : Int) + s.length + 1 > maxS ∧ (temp.length : Int) ≥ minS
    then sentAccum maxS minS ss (out ++ [pyStrip temp]) s
    else sentAccum maxS minS ss out
      (if temp = [] then s else temp ++ ' ' :: s)

/-- Second pass of chunk_chapter_content: any paragraph-packed chunk still
over the maximum is re-split at sentence boundaries. -/
def sentPass (maxS minS : Int) : List (List Char) → List (List Char)
  | [] => []
  | k :: ks =>
    (if (k.length : Int) > maxS then sentAccum maxS minS (splitSents k) [] []
     else [k]) ++ sentPass maxS minS ks

/-- Embedding of chunk_chapter_content from the chapter-chunking experiment:
content at most the maximum size is returned whole; otherwise paragraphs
are packed greedily and oversized chunks fall back to sentence packing. -/
def chunk_chapter_content (content : List Char) (maxS minS : Int) :
    List (List Char) :=
  if (content.length : Int) ≤ maxS then [content]
  else sentPass maxS minS (paraAccum maxS minS (splitParas content) [] [])

/-- Claim C4 (amended): content whose length is at most the maximum size is
returned as the single whole chunk. For a non-positive maximum with longer
content splitting still occurs, see the counterexample. -/
theorem chunk_whole_when_fits (content : List Char) (maxS minS : Int)
    (h : (content.length : Int) ≤ maxS) :
    chunk_chapter_content content maxS minS = [content] := by
  unfold chunk_chapter_content
  rw [if_pos h]

theorem chunk_whole_when_fits_witness :
    chunk_chapter_content (S ("abc")) 5 0 = [S ("abc")] :=
  chunk_whole_when_fits (S ("abc")) 5 0 (by decide)

/-- Claim C4 counterexample: with a negative maximum size and non-empty
content the chunker does not return the single whole chunk; it splits and
even emits empty chunks. -/
theorem chunk_negative_max_counterexample :
    chunk_chapter_content (S ("a")) (-1) 0 = [[], [], S ("a")] ∧
    chunk_chapter_content (S ("a")) (-1) 0 ≠ [S ("a")] := by
  decide

/-- Boolean check that no sentence boundary (terminator followed by
whitespace) occurs inside the text. -/
def noSentBreakB : List Char → Bool
  | [] => true
  | [_] => true
  | a :: b :: rest => !(isSentEnd a && isPySpace b) && noSentBreakB (b :: rest)

/-- No sentence boundary occurs inside the text: it is a single sentence
for the sentence-splitting pattern. -/
def noSentBreak (l : List Char) : Prop := noSentBreakB l = true

instance (l : List Char) : Decidable (noSentBreak l) :=
  inferInstanceAs (Decidable (_ = true))

theorem noSentBreak_iff_chain (l : List Char) :
    noSentBreak l ↔ l.Chain' fun a b => ¬(isSentEnd a ∧ isPySpace b) := by
  induction l using noSentBreakB.induct with
  | case1 => simp [noSentBreak, noSentBreakB]
  | case2 a => simp [noSentBreak, noSentBreakB]
  | case3 a b rest ih =>
    rw [noSentBreak, noSentBreakB] at *
    rw [List.chain'_cons]
    constructor
    · intro h
      have h1 := (Bool.and_eq_true _ _).mp h
      refine ⟨?_, ih.mp h1.2⟩
      intro hab
      simp [hab.1, hab.2] at h1
    · rintro ⟨h1, h2⟩
      refine (Bool.and_eq_true _ _).mpr ⟨?_, ih.mpr h2⟩
      by_cases ha : isSentEnd a <;> by_cases hb : isPySpace b <;> simp_all

theorem noSentBreak_isInf {l m : List Char} (h : m <:+: l)
    (hl : noSentBreak l) : noSentBreak m :=
  (noSentBreak_iff_chain m).mpr
    ( List.Chain'.infix ((noSentBreak_iff_chain l).mp hl) h)

/-- Every piece produced by the sentence splitter is boundary-free. -/
theorem splitSentsGo_pieces (l : List Char) :
    ∀ (cur : List Char) (flag : Bool),
      cur.Chain' (fun a b => ¬(isSentEnd b ∧ isPySpace a)) →
      ∀ p ∈ splitSentsGo cur flag l, noSentBreak p := by
  induction l with
  | nil =>
    intro cur flag hcur p hp
    cases flag with
    | false =>
      rw [splitSentsGo] at hp
      rcases List.mem_singleton.mp hp with rfl
      exact (noSentBreak_iff_chain _).mpr (List.chain'_reverse.mpr hcur)
    | true =>
      rw [splitSentsGo] at hp
      rcases List.mem_singleton.mp hp with rfl
      exact (noSentBreak_iff_chain _).mpr (List.chain'_reverse.mpr hcur)
  | cons c rest ih =>
    intro cur flag hcur p hp
    cases flag with
    | true =>
      rw [splitSentsGo] at hp
      by_cases hws : isPySpace c
      · rw [if_pos hws] at hp
        exact ih cur true hcur p hp
      · rw [if_neg hws] at hp
        exact ih [c] false (List.chain'_singleton c) p hp
    | false =>
      rw [splitSentsGo] at hp
      by_cases hg : (isPySpace c && headIsSentEnd cur) = true
      · rw [if_pos hg] at hp
        rcases List.mem_cons.mp hp with rfl | hp
        · exact (noSentBreak_iff_chain _).mpr (List.chain'_reverse.mpr hcur)
        · exact ih [] true List.chain'_nil p hp
      · rw [if_neg hg] at hp
        refine ih (c :: cur) false ?_ p hp
        cases cur with
        | nil => exact List.chain'_singleton c
        | cons t cur2 =>
          refine List.chain'_cons.mpr ⟨?_, hcur⟩
          intro hab
          exact hg (by simp [headIsSentEnd, hab.1, hab.2])

/-- A boundary-free text is returned whole by the sentence splitter. -/
theorem splitSentsGo_single (l : List Char) :
    ∀ cur, noSentBreak (cur.reverse ++ l) →
      splitSentsGo cur false l = [cur.reverse ++ l] := by
  induction l with
  | nil =>
    intro cur hnb
    rw [splitSentsGo, List.append_nil]
  | cons c rest ih =>
    intro cur hnb
    rw [splitSentsGo]
    have hg : (isPySpace c && headIsSentEnd cur) = false := by
      cases cur with
      | nil => simp [headIsSentEnd]
      | cons t cur2 =>
        have hinfix : [t, c] <:+: ((t :: cur2).reverse ++ c :: rest) := by
          refine ⟨cur2.reverse, rest, ?_⟩
          simp
        have hch := List.Chain'.infix ((noSentBreak_iff_chain _).mp hnb) hinfix
        have hpair := List.chain'_pair.mp hch
        by_cases ht : isSentEnd t <;> by_cases hc : isPySpace c <;>
          simp_all [headIsSentEnd]
    rw [hg]
    simp only [Bool.false_eq_true, if_false]
    have hnb2 : noSentBreak ((c :: cur).reverse ++ rest) := by
      have : (c :: cur).reverse ++ rest = cur.reverse ++ c :: rest := by simp
      rw [this]
      exact hnb
    rw [ih (c :: cur) hnb2]
    simp

theorem splitSents_single (l : List Char) (h : noSentBreak l) :
    splitSents l = [l] := by
  have := splitSentsGo_single l [] (by simpa using h)
  simpa [splitSents] using this

theorem pyStrip_noSentBreak {l : List Char} (h : noSentBreak l) :
    noSentBreak (pyStrip l) :=
  noSentBreak_isInf (pyStrip_isInf l) h

/-- Invariant of the greedy sentence packing: with a non-positive minimum
and positive maximum, every emitted chunk fits the maximum or is the strip
of a single sentence. -/
theorem sentAccum_good (maxS minS : Int) (hmin : minS ≤ 0)
    (ss : List (List Char)) :
    ∀ (out : List (List Char)) (temp : List Char),
      (∀ s ∈ ss, noSentBreak s) →
      ((temp.length : Int) ≤ maxS ∨ noSentBreak temp) →
      (∀ r ∈ out, (r.length : Int) ≤ maxS ∨ splitSents r = [r]) →
      ∀ r ∈ sentAccum maxS minS ss out temp,
        (r.length : Int) ≤ maxS ∨ splitSents r = [r] := by
  have hgood : ∀ temp : List Char,
      ((temp.length : Int) ≤ maxS ∨ noSentBreak temp) →
      ((pyStrip temp).length : Int) ≤ maxS ∨
        splitSents (pyStrip temp) = [pyStrip temp] := by
    intro temp htemp
    rcases htemp with h | h
    · left
      have := pyStrip_length_le temp
      omega
    · right
      exact splitSents_single _ (pyStrip_noSentBreak h)
  induction ss with
  | nil =>
    intro out temp hss htemp hout r hr
    rw [sentAccum] at hr
    by_cases hz : temp = []
    · rw [if_pos hz] at hr
      exact hout r hr
    · rw [if_neg hz] at hr
      rcases List.mem_append.mp hr with hr | hr
      · exact hout r hr
      · rcases List.mem_singleton.mp hr with rfl
        exact hgood temp htemp
  | cons s ss2 ih =>
    intro out temp hss htemp hout r hr
    rw [sentAccum] at hr
    by_cases hcl : (temp.length : Int) + s.length + 1 > maxS ∧
        (temp.length : Int) ≥ minS
    · rw [if_pos hcl] at hr
      refine ih (out ++ [pyStrip temp]) s
        (fun x hx => hss x (List.mem_cons_of_mem _ hx))
        (Or.inr (hss s (List.mem_cons_self _ _))) ?_ r hr
      intro x hx
      rcases List.mem_append.mp hx with hx | hx
      · exact hout x hx
      · rcases List.mem_singleton.mp hx with rfl
        exact hgood temp htemp
    · rw [if_neg hcl] at hr
      have hge : (temp.length : Int) ≥ minS := by
        have : (0 : Int) ≤ (temp.length : Int) := Int.ofNat_nonneg _
        omega
      have hsum : ¬((temp.length : Int) + s.length + 1 > maxS) := fun hc =>
        hcl ⟨hc, hge⟩
      refine ih out (if temp = [] then s else temp ++ ' ' :: s)
        (fun x hx => hss x (List.mem_cons_of_mem _ hx)) ?_ hout r hr
      by_cases hz : temp = []
      · rw [if_pos hz]
        exact Or.inr (hss s (List.mem_cons_self _ _))
      · rw [if_neg hz]
        left
        have hlen : (temp ++ ' ' :: s).length = temp.length + s.length + 1 := by
          simp [List.length_append]
          omega
        rw [hlen]
        push_cast
        omega

/-- Every chunk of the sentence-fallback pass fits the maximum or is a
single sentence, for a non-positive minimum size. -/
theorem sentPass_good (maxS minS : Int) (hmin : minS ≤ 0) :
    ∀ ks : List (List Char), ∀ r ∈ sentPass maxS minS ks,
      (r.length : Int) ≤ maxS ∨ splitSents r = [r] := by
  intro ks
  induction ks with
  | nil => intro r hr; rw [sentPass] at hr; exact absurd hr (List.not_mem_nil r)
  | cons k ks2 ih =>
    intro r hr
    rw [sentPass] at hr
    rcases List.mem_append.mp hr with hr | hr
    · by_cases hk : ((k.length : Int) > maxS)
      · rw [if_pos hk] at hr
        refine sentAccum_good maxS minS hmin (splitSents k) [] []
          (fun s hs => splitSentsGo_pieces k [] false List.chain'_nil s hs)
          (Or.inr (by decide)) (fun x hx => absurd hx (List.not_mem_nil x))
          r hr
      · rw [if_neg hk] at hr
        rcases List.mem_singleton.mp hr with rfl
        left
        omega
    · exact ih r hr

/-- Claim C3 (amended): for a positive maximum and a non-positive minimum
size, every chunk either fits within the maximum size or is a single
sentence (no internal sentence boundary), hence an irreducible unit. When
the minimum size is positive the guarantee fails, see the counterexample:
a chunk below the minimum keeps absorbing sentences past the maximum. -/
theorem chunk_chapter_content_bound (content : List Char) (maxS minS : Int)
    (hmax : 0 < maxS) (hmin : minS ≤ 0) :
    ∀ r ∈ chunk_chapter_content content maxS minS,
      (r.length : Int) ≤ maxS ∨ splitSents r = [r] := by
  intro r hr
  unfold chunk_chapter_content at hr
  by_cases h : (content.length : Int) ≤ maxS
  · rw [if_pos h] at hr
    rcases List.mem_singleton.mp hr with rfl
    left
    exact h
  · rw [if_neg h] at hr
    exact sentPass_good maxS minS hmin _ r hr

theorem chunk_chapter_content_bound_witness :
    ((S ("aa.")).length : Int) ≤ 5 ∨ splitSents (S ("aa.")) = [S ("aa.")] :=
  chunk_chapter_content_bound (S ("aa. bbbbbbb")) 5 0 (by decide) (by decide)
    (S ("aa.")) (by decide)

/-- Claim C3 counterexample: with a positive minimum size the chunker can
emit a chunk that exceeds the maximum size yet is neither a single
paragraph nor a single sentence: below the minimum, sentences keep being
absorbed past the maximum. -/
theorem chunk_oversized_multisentence_counterexample :
    chunk_chapter_content (S ("a.\n\nbbbbbb. c")) 5 3
      = [S ("a. bbbbbb."), S ("c")] ∧
    ¬ (((S ("a. bbbbbb.")).length : Int) ≤ 5) ∧
    splitSents (S ("a. bbbbbb.")) = [S ("a."), S ("bbbbbb.")] ∧
    S ("a. bbbbbb.") ∉ splitParas (S ("a.\n\nbbbbbb. c")) := by
  decide

/-! ## MarkdownCleaner paragraph-spacing pass
(text/processors.MarkdownCleaner, method fix_paragraph_spacing) -/

/-- Loop of the paragraph-spacing pass: each line is right-trimmed; blank
lines are emitted only when the previous right-trimmed line was non-blank. -/
def fixSpacingGo : List (List Char) → List Char → List (List Char)
  | [], _ => []
  | l :: rest, last =>
    if rstrip l = [] then
      if last = [] then fixSpacingGo rest (rstrip l)
      else [] :: fixSpacingGo rest (rstrip l)
    else rstrip l :: fixSpacingGo rest (rstrip l)

/-- Embedding of MarkdownCleaner paragraph spacing: split into lines, run
the loop with an empty previous line, and rejoin. -/
def fix_paragraph_spacing (content : List Char) : List Char :=
  joinLines (fixSpacingGo (splitLines content) [])

/-- Number of maximal blank runs that follow a non-blank line. -/
def blankRunCount : List (List Char) → Nat
  | x :: y :: t =>
    (if x ≠ [] ∧ y = [] then 1 else 0) + blankRunCount (y :: t)
  | _ => 0

theorem fixSpacingGo_filter (ls : List (List Char)) :
    ∀ last, (fixSpacingGo ls last).filter (fun l => !l.isEmpty)
      = (ls.map rstrip).filter fun l => !l.isEmpty := by
  induction ls with
  | nil => intro last; rfl
  | cons l rest ih =>
    intro last
    rw [fixSpacingGo, List.map_cons]
    by_cases hz : rstrip l = []
    · rw [if_pos hz, hz]
      by_cases hl : last = []
      · rw [if_pos hl, ih]
        simp
      · rw [if_neg hl]
        simp [ih]
    · rw [if_neg hz]
      have : (rstrip l).isEmpty = false := by
        cases h : rstrip l with
        | nil => exact absurd h hz
        | cons a as => rfl
      simp [List.filter_cons, this, ih]

theorem fixSpacingGo_sublist (ls : List (List Char)) :
    ∀ last, (fixSpacingGo ls last).Sublist (ls.map rstrip) := by
  induction ls with
  | nil => intro last; simp [fixSpacingGo]
  | cons l rest ih =>
    intro last
    rw [fixSpacingGo, List.map_cons]
    by_cases hz : rstrip l = []
    · rw [if_pos hz]
      by_cases hl : last = []
      · rw [if_pos hl]
        exact (ih _).cons _
      · rw [if_neg hl, hz]
        exact (ih _).cons₂ _
    · rw [if_neg hz]
      exact (ih _).cons₂ _

theorem fixSpacingGo_head_ne_blank (ls : List (List Char)) :
    ∀ h t, fixSpacingGo ls [] = h :: t → h ≠ [] := by
  induction ls with
  | nil => intro h t he; exact absurd he (by simp [fixSpacingGo])
  | cons l rest ih =>
    intro h t he
    rw [fixSpacingGo] at he
    by_cases hz : rstrip l = []
    · rw [if_pos hz, if_pos rfl, hz] at he
      exact ih h t he
    · rw [if_neg hz] at he
      rw [← (List.cons.injEq _ _ _ _).mp he |>.1]
      exact hz

theorem fixSpacingGo_chain (ls : List (List Char)) :
    ∀ last, (fixSpacingGo ls last).Chain' fun a b => a ≠ [] ∨ b ≠ [] := by
  induction ls with
  | nil => intro last; simp [fixSpacingGo]
  | cons l rest ih =>
    intro last
    rw [fixSpacingGo]
    by_cases hz : rstrip l = []
    · rw [if_pos hz]
      by_cases hl : last = []
      · rw [if_pos hl]
        exact ih _
      · rw [if_neg hl, hz]
        refine List.chain'_cons'.mpr ⟨?_, ih _⟩
        intro y hy
        right
        have hym := List.mem_of_mem_head? hy
        cases hys : fixSpacingGo rest [] with
        | nil => rw [hys] at hym; exact absurd hym (List.not_mem_nil y)
        | cons a as =>
          rw [hys] at hym hy
          simp only [List.head?_cons, Option.mem_def, Option.some.injEq] at hy
          rw [← hy]
          exact fixSpacingGo_head_ne_blank rest a as hys
    · rw [if_neg hz]
      refine List.chain'_cons'.mpr ⟨fun y hy => Or.inl hz, ih _⟩

theorem fixSpacingGo_count (ls : List (List Char)) :
    ∀ last, (fixSpacingGo ls last).count []
      = blankRunCount (last :: ls.map rstrip) := by
  induction ls with
  | nil => intro last; rfl
  | cons l rest ih =>
    intro last
    rw [fixSpacingGo, List.map_cons,
      show blankRunCount (last :: rstrip l :: rest.map rstrip)
        = (if last ≠ [] ∧ rstrip l = [] then 1 else 0)
          + blankRunCount (rstrip l :: rest.map rstrip) from rfl]
    by_cases hz : rstrip l = []
    · rw [if_pos hz]
      by_cases hl : last = []
      · rw [if_pos hl, if_neg (by simp [hl]), ih, hz]
        simp
      · rw [if_neg hl, if_pos ⟨hl, hz⟩, hz]
        rw [List.count_cons]
        rw [ih]
        simp [Nat.add_comm]
    · rw [if_neg hz, if_neg (by simp [hz])]
      rw [List.count_cons]
      rw [ih]
      have h2 : ¬([] = rstrip l) := fun e => hz e.symm
      simp [h2, hz]

/-- Claim C10: the paragraph-spacing pass outputs the right-trimmed
non-blank input lines unchanged and in order (filter equality plus sublist,
so nothing is inserted between consecutive non-blank lines), collapses each
maximal blank run following a non-blank line to exactly one blank line (no
two adjacent blanks, and the blank count equals the number of such runs),
and drops leading blank lines. -/
theorem fix_paragraph_spacing_spec (content : List Char) :
    fix_paragraph_spacing content
        = joinLines (fixSpacingGo (splitLines content) []) ∧
    (fixSpacingGo (splitLines content) []).Sublist
        ((splitLines content).map rstrip) ∧
    (fixSpacingGo (splitLines content) []).filter (fun l => !l.isEmpty)
        = ((splitLines content).map rstrip).filter (fun l => !l.isEmpty) ∧
    (fixSpacingGo (splitLines content) []).Chain'
        (fun a b => a ≠ [] ∨ b ≠ []) ∧
    (∀ h t, fixSpacingGo (splitLines content) [] = h :: t → h ≠ []) ∧
    (fixSpacingGo (splitLines content) []).count []
        = blankRunCount ((splitLines content).map rstrip) := by
  refine ⟨rfl, fixSpacingGo_sublist _ _, fixSpacingGo_filter _ _,
    fixSpacingGo_chain _ _, fixSpacingGo_head_ne_blank _,
    ?_⟩
  rw [fixSpacingGo_count]
  cases h : (splitLines content).map rstrip with
  | nil => rfl
  | cons a as =>
    rw [show blankRunCount ([] :: a :: as)
      = (if ([] : List Char) ≠ [] ∧ a = [] then 1 else 0)
        + blankRunCount (a :: as) from rfl]
    simp

/-! ## TTS Markup Stripper
(bw_utils.clean_markdown_for_tts, text/processors.TTSPreprocessor.process)

Each regex pass of the source is one matcher below, run under the generic
pySub engine. Backtick and brace characters are written with numeric
escapes. -/

/-- Backtick character. -/
def tick : Char := '\x60'

/-- Pass removing empty-bracket ID markers: open and close bracket, open
brace, hash, one or more non-brace characters, close brace. -/
def tryEmptyBracketId : Bool → List Char → Option (List Char × Nat)
  | _, '[' :: ']' :: '\x7b' :: '#' :: rest =>
    (match rest.dropWhile (· ≠ '\x7d') with
     | '\x7d' :: _ =>
       if rest.takeWhile (· ≠ '\x7d') = [] then none
       else some ([], 4 + (rest.takeWhile (· ≠ '\x7d')).length + 1)
     | _ => none)
  | _, _ => none

/-- Position of the first closing triple backtick, counted through to its
end, if any. -/
def findTripleTick : List Char → Option Nat
  | t1 :: t2 :: t3 :: rest =>
    if t1 = tick ∧ t2 = tick ∧ t3 = tick then some 3
    else (findTripleTick (t2 :: t3 :: rest)).map (· + 1)
  | _ => none

/-- Pass removing fenced raw HTML blocks: the tagged opening fence through
the next closing triple backtick, lazily. -/
def tryHtmlBlock : Bool → List Char → Option (List Char × Nat) := fun _ l =>
  if l.take 10 = S ("\x60\x60\x60\x7b=html\x7d") then
    match findTripleTick (l.drop 10) with
    | some n => some ([], 10 + n)
    | none => none
  else none

/-- Pass removing block-attribute markers: three colons, space, open brace,
one or more non-brace characters, close brace. -/
def trySectionAttr : Bool → List Char → Option (List Char × Nat)
  | _, ':' :: ':' :: ':' :: ' ' :: '\x7b' :: rest =>
    (match rest.dropWhile (· ≠ '\x7d') with
     | '\x7d' :: _ =>
       if rest.takeWhile (· ≠ '\x7d') = [] then none
       else some ([], 5 + (rest.takeWhile (· ≠ '\x7d')).length + 1)
     | _ => none)
  | _, _ => none

/-- Pass removing any remaining three-colon line remainder. -/
def tryColons : Bool → List Char → Option (List Char × Nat)
  | _, ':' :: ':' :: ':' :: rest =>
    some ([], 3 + (rest.takeWhile (· ≠ '\n')).length)
  | _, _ => none

/-- Trailing attribute group of a heading: space, open brace, one or more
non-brace characters, close brace. Returns its total length. -/
def tryAttrTail : List Char → Option Nat
  | ' ' :: '\x7b' :: r2 =>
    (match r2.dropWhile (· ≠ '\x7d') with
     | '\x7d' :: _ =>
       if r2.takeWhile (· ≠ '\x7d') = [] then none
       else some (2 + (r2.takeWhile (· ≠ '\x7d')).length + 1)
     | _ => none)
  | _ => none

/-- Lazy scan of the heading text: grow over non-newline characters until a
trailing attribute group follows. Returns the text and the consumed length. -/
def headAttrScan : List Char → List Char → Option (List Char × Nat)
  | acc, l =>
    match tryAttrTail l with
    | some n => some (acc.reverse, acc.length + n)
    | none =>
      match l with
      | [] => none
      | c :: rest =>
        if c = '\n' then none else headAttrScan (c :: acc) rest

/-- Pass stripping attribute groups from headings, keeping the heading text:
one or more hashes, space, lazy text, then the attribute group. -/
def tryHeadingAttr : Bool → List Char → Option (List Char × Nat) := fun _ l =>
  if l.takeWhile (· = '#') = [] then none
  else
    match l.drop (l.takeWhile (· = '#')).length with
    | ' ' :: rest2 =>
      match headAttrScan [] rest2 with
      | some (text, n) =>
        some (l.takeWhile (· = '#') ++ ' ' :: text,
          (l.takeWhile (· = '#')).length + 1 + n)
      | none => none
    | _ => none

/-- Pass removing empty image references: bang, brackets, parenthesized
non-empty url. -/
def tryImage : Bool → List Char → Option (List Char × Nat)
  | _, '!' :: '[' :: ']' :: '(' :: rest =>
    (match rest.dropWhile (· ≠ ')') with
     | ')' :: _ =>
       if rest.takeWhile (· ≠ ')') = [] then none
       else some ([], 4 + (rest.takeWhile (· ≠ ')')).length + 1)
     | _ => none)
  | _, _ => none

/-- Pass removing the cover-image attribute marker. -/
def tryCover : Bool → List Char → Option (List Char × Nat) := fun _ l =>
  if l.take 21 = S ("\x7b.x-ebookmaker-cover\x7d") then some ([], 21)
  else none

/-- Pass removing inline ID markers: open brace, hash, one or more
non-brace characters, close brace. -/
def tryBraceId : Bool → List Char → Option (List Char × Nat)
  | _, '\x7b' :: '#' :: rest =>
    (match rest.dropWhile (· ≠ '\x7d') with
     | '\x7d' :: _ =>
       if rest.takeWhile (· ≠ '\x7d') = [] then none
       else some ([], 2 + (rest.takeWhile (· ≠ '\x7d')).length + 1)
     | _ => none)
  | _, _ => none

/-- Closing of an attribute-span annotation: close bracket, open brace,
one or more non-brace characters, close brace. Returns its length. -/
def tryBrTail : List Char → Option Nat
  | ']' :: '\x7b' :: r2 =>
    (match r2.dropWhile (· ≠ '\x7d') with
     | '\x7d' :: _ =>
       if r2.takeWhile (· ≠ '\x7d') = [] then none
       else some (2 + (r2.takeWhile (· ≠ '\x7d')).length + 1)
     | _ => none)
  | _ => none

/-- Lazy scan for the attribute-span text over non-newline characters. -/
def brScan : Nat → List Char → Option Nat
  | seen, l =>
    match tryBrTail l with
    | some n => some (seen + n)
    | none =>
      match l with
      | [] => none
      | c :: rest =>
        if c = '\n' then none else brScan (seen + 1) rest

/-- Pass removing attribute-span annotations: bracketed lazy text followed
by a braced attribute group. -/
def tryBracketAttr : Bool → List Char → Option (List Char × Nat)
  | _, '[' :: rest => (brScan 0 rest).map fun n => ([], 1 + n)
  | _, _ => none

/-- Pass removing language attributes: the lang= prefix and a non-empty
double-quoted value. -/
def tryLang : Bool → List Char → Option (List Char × Nat) := fun _ l =>
  if l.take 6 = S ("lang=\"") then
    match (l.drop 6).dropWhile (· ≠ '"') with
    | '"' :: _ =>
      if (l.drop 6).takeWhile (· ≠ '"') = [] then none
      else some ([], 6 + ((l.drop 6).takeWhile (· ≠ '"')).length + 1)
    | _ => none
  else none

/-- Pass converting links to their display text: bracketed non-empty text
without closing brackets, then a parenthesized non-empty url. -/
def tryLinkText : Bool → List Char → Option (List Char × Nat)
  | _, '[' :: rest =>
    if rest.takeWhile (· ≠ ']') = [] then none
    else
      match rest.dropWhile (· ≠ ']') with
      | ']' :: '(' :: r2 =>
        if r2.takeWhile (· ≠ ')') = [] then none
        else
          match r2.dropWhile (· ≠ ')') with
          | ')' :: _ =>
            some (rest.takeWhile (· ≠ ']'),
              1 + (rest.takeWhile (· ≠ ']')).length + 2
                + (r2.takeWhile (· ≠ ')')).length + 1)
          | _ => none
      | _ => none
  | _, _ => none

/-- Pass removing HTML tags: angle brackets around one or more characters. -/
def tryHtmlTag : Bool → List Char → Option (List Char × Nat)
  | _, '<' :: rest =>
    (match rest.dropWhile (· ≠ '>') with
     | '>' :: _ =>
       if rest.takeWhile (· ≠ '>') = [] then none
       else some ([], 1 + (rest.takeWhile (· ≠ '>')).length + 1)
     | _ => none)
  | _, _ => none

/-- Pass removing any remaining brace-attribute group. -/
def tryBraceAttr : Bool → List Char → Option (List Char × Nat)
  | _, '\x7b' :: rest =>
    (match rest.dropWhile (· ≠ '\x7d') with
     | '\x7d' :: _ =>
       if rest.takeWhile (· ≠ '\x7d') = [] then none
       else some ([], 1 + (rest.takeWhile (· ≠ '\x7d')).length + 1)
     | _ => none)
  | _, _ => none

/-- Emphasis flattening for a doubled delimiter (bold). -/
def tryDoubleDelim (d : Char) : Bool → List Char → Option (List Char × Nat) :=
  fun _ l =>
    match l with
    | c1 :: c2 :: rest =>
      if c1 = d ∧ c2 = d then
        if rest.takeWhile (· ≠ d) = [] then none
        else
          match rest.dropWhile (· ≠ d) with
          | e1 :: e2 :: _ =>
            if e1 = d ∧ e2 = d then
              some (rest.takeWhile (· ≠ d),
                2 + (rest.takeWhile (· ≠ d)).length + 2)
            else none
          | _ => none
      else none
    | _ => none

/-- Emphasis flattening for a single delimiter (italic, inline code). -/
def trySingleDelim (d : Char) : Bool → List Char → Option (List Char × Nat) :=
  fun _ l =>
    match l with
    | c1 :: rest =>
      if c1 = d then
        if rest.takeWhile (· ≠ d) = [] then none
        else
          match rest.dropWhile (· ≠ d) with
          | e1 :: _ =>
            if e1 = d then
              some (rest.takeWhile (· ≠ d),
                1 + (rest.takeWhile (· ≠ d)).length + 1)
            else none
          | _ => none
      else none
    | _ => none

/-- Pass removing footnote references: bracket, caret, one or more
non-bracket characters, close bracket. -/
def tryFootnote : Bool → List Char → Option (List Char × Nat)
  | _, '[' :: '^' :: rest =>
    (match rest.dropWhile (· ≠ ']') with
     | ']' :: _ =>
       if rest.takeWhile (· ≠ ']') = [] then none
       else some ([], 2 + (rest.takeWhile (· ≠ ']')).length + 1)
     | _ => none)
  | _, _ => none

/-- Pass removing ordered-list numeric prefixes at line starts: digits, a
dot, then greedy whitespace. Anchored at a line start. -/
def tryOrderedNum : Bool → List Char → Option (List Char × Nat)
  | false, _ => none
  | true, l =>
    if l.takeWhile (·.isDigit) = [] then none
    else
      match l.drop (l.takeWhile (·.isDigit)).length with
      | '.' :: r2 =>
        if r2.takeWhile isPySpace = [] then none
        else some ([], (l.takeWhile (·.isDigit)).length + 1
          + (r2.takeWhile isPySpace).length)
      | _ => none

/-- Punctuation that may be backslash-escaped. -/
def escapableChar (c : Char) : Bool :=
  c = '\\' || c = tick || c = '*' || c = '_' || c = '\x7b' || c = '\x7d' ||
  c = '[' || c = ']' || c = '(' || c = ')' || c = '#' || c = '+' ||
  c = '-' || c = '.' || c = '!'

/-- Pass un-escaping backslash-escaped punctuation. -/
def tryEscape : Bool → List Char → Option (List Char × Nat)
  | _, '\\' :: c :: _ => if escapableChar c then some ([c], 2) else none
  | _, _ => none

/-- Pass removing runs of two or more backslashes. -/
def tryMultiBackslash : Bool → List Char → Option (List Char × Nat)
  | _, '\\' :: '\\' :: rest =>
    some ([], 2 + (rest.takeWhile (· = '\\')).length)
  | _, _ => none

/-- Case-insensitive comparison of two texts of the same spelling. -/
def eqCI : List Char → List Char → Bool
  | [], [] => true
  | a :: as, b :: bs => a.toLower = b.toLower && eqCI as bs
  | _, _ => false

/-- Pass removing a boilerplate marker phrase, case-insensitively, together
with the remainder of its line. -/
def tryBoiler (phrase : List Char) : Bool → List Char → Option (List Char × Nat) :=
  fun _ l =>
    if eqCI (l.take phrase.length) phrase then
      some ([], phrase.length + ((l.drop phrase.length).takeWhile (· ≠ '\n')).length)
    else none

/-- Pass removing a backslash at a line end. -/
def tryBackslashEol : Bool → List Char → Option (List Char × Nat)
  | _, ['\\'] => some ([], 1)
  | _, '\\' :: '\n' :: _ => some ([], 1)
  | _, _ => none

/-- Pass collapsing runs of two or more spaces to one space. -/
def tryDoubleSpace : Bool → List Char → Option (List Char × Nat)
  | _, ' ' :: ' ' :: rest =>
    some ([' '], 2 + (rest.takeWhile (· = ' ')).length)
  | _, _ => none

/-- Pass collapsing runs of three or more newlines to two newlines. -/
def tryTripleNl : Bool → List Char → Option (List Char × Nat)
  | _, '\n' :: '\n' :: '\n' :: rest =>
    some (['\n', '\n'], 3 + (rest.takeWhile (· = '\n')).length)
  | _, _ => none

/-- Embedding of bw_utils.clean_markdown_for_tts: the ordered battery of
substitution passes followed by a final strip. -/
def clean_markdown_for_tts (content : List Char) : List Char :=
  let c := pySub tryEmptyBracketId content
  let c := pySub tryHtmlBlock c
  let c := pySub trySectionAttr c
  let c := pySub tryColons c
  let c := pySub tryHeadingAttr c
  let c := pySub tryImage c
  let c := pySub tryCover c
  let c := pySub tryBraceId c
  let c := pySub tryBracketAttr c
  let c := pySub tryLang c
  let c := pySub tryLinkText c
  let c := pySub tryHtmlTag c
  let c := pySub tryBraceAttr c
  let c := pySub (tryDoubleDelim '*') c
  let c := pySub (trySingleDelim '*') c
  let c := pySub (tryDoubleDelim '_') c
  let c := pySub (trySingleDelim '_') c
  let c := pySub tryFootnote c
  let c := pySub tryOrderedNum c
  let c := pySub tryEscape c
  let c := pySub tryMultiBackslash c
  let c := pySub (tryBoiler (S ("START OF THE PROJECT GUTENBERG EBOOK"))) c
  let c := pySub (tryBoiler (S ("END OF THE PROJECT GUTENBERG EBOOK"))) c
  let c := pySub tryBackslashEol c
  let c := pySub tryDoubleSpace c
  let c := pySub tryTripleNl c
  pyStrip c

/-- Index of the last newline in a whitespace run, if any. -/
def lastNlIdx (run : List Char) : Option Nat :=
  match run.reverse.findIdx? (· = '\n') with
  | some j => some (run.length - 1 - j)
  | none => none

/-- Pass removing whitespace runs at line ends: greedy whitespace that must
stop right before a newline or at the end of the text; the greedy run
backtracks to the last newline inside it. -/
def tryWsEol : Bool → List Char → Option (List Char × Nat) := fun _ l =>
  match l with
  | c :: _ =>
    if isPySpace c then
      if l.drop (l.takeWhile isPySpace).length = [] then
        some ([], (l.takeWhile isPySpace).length)
      else
        match lastNlIdx (l.takeWhile isPySpace) with
        | some k => if 1 ≤ k then some ([], k) else none
        | none => none
    else none
  | [] => none

namespace TTSPreprocessor

/-- Embedding of TTSPreprocessor.process: same battery with the inline-code
pass, the line-end whitespace pass and the extra final trims. -/
def process (content : List Char) : List Char :=
  let c := pySub tryEmptyBracketId content
  let c := pySub tryHtmlBlock c
  let c := pySub trySectionAttr c
  let c := pySub tryColons c
  let c := pySub tryHeadingAttr c
  let c := pySub tryImage c
  let c := pySub tryCover c
  let c := pySub tryBraceId c
  let c := pySub tryBracketAttr c
  let c := pySub tryLang c
  let c := pySub tryLinkText c
  let c := pySub tryHtmlTag c
  let c := pySub tryBraceAttr c
  let c := pySub (tryDoubleDelim '*') c
  let c := pySub (trySingleDelim '*') c
  let c := pySub (tryDoubleDelim '_') c
  let c := pySub (trySingleDelim '_') c
  let c := pySub (trySingleDelim tick) c
  let c := pySub tryFootnote c
  let c := pySub tryOrderedNum c
  let c := pySub tryEscape c
  let c := pySub tryMultiBackslash c
  let c := pySub (tryBoiler (S ("START OF THE PROJECT GUTENBERG EBOOK"))) c
  let c := pySub (tryBoiler (S ("END OF THE PROJECT GUTENBERG EBOOK"))) c
  let c := pySub tryBackslashEol c
  let c := pySub tryDoubleSpace c
  let c := pySub tryTripleNl c
  let c := pySub tryWsEol c
  let c := pyStrip c
  rstrip c

end TTSPreprocessor

/-- Claim C7: stripping the sample emphasis-link-ID string for speech
yields exactly the bare words with the trailing space trimmed, in both the
bw_utils and the TTSPreprocessor variants. -/
theorem tts_strip_sample :
    clean_markdown_for_tts
      (S ("**Bold** and *italic* text with [link](http://example.com) and []\x7b#id\x7d"))
        = S ("Bold and italic text with link and") ∧
    TTSPreprocessor.process
      (S ("**Bold** and *italic* text with [link](http://example.com) and []\x7b#id\x7d"))
        = S ("Bold and italic text with link and") := by
  decide
